import Mathlib

/-!
Verification development for the ABCI connection-level protocol engine
(`tend/abci/protocol.py`).

The Python source is shallowly embedded below.  Byte strings are `List Nat`
with elements understood to be byte values (< 256); the encoder only produces
such values.  Python exceptions are modelled with `Except`; `None` results are
modelled with `Option`.  The varint codec comes from the `betterproto`
dependency (`encode_varint` / `decode_varint`); its loop is embedded
faithfully, including the 64-bit shift guard and its failure on a truncated
buffer.  For byte values `b < 256` the source's bit operations are written
arithmetically: `b & 0x7F` is `b % 128`, the continuation test `b & 0x80` is
`128 ≤ b`, `x | 0x80` on a 7-bit value is `x + 128`, `v >> 7` is `v / 128`,
and `result |= (b & 0x7F) << shift` is `acc + b % 128 * 2 ^ shift` because the
added bit ranges are disjoint.
-/

namespace ABCI

/-! ### betterproto varint codec -/

/-- Failure modes of `betterproto.decode_varint`: reading past the end of the
buffer (Python `IndexError`/`EOFError`), or more than ten bytes of
continuation (`ValueError("Too many bytes when decoding varint.")`, the
`shift >= 64` guard). -/
inductive VarintError where
  | truncated
  | tooLong
deriving DecidableEq

/-- Loop of `betterproto.decode_varint(buffer, pos)`, reading from the head of
`buf`: the shift guard is checked, one byte is read, its low seven bits are
added at the current shift, and the loop continues while the continuation bit
is set.  Returns the decoded value and the position after the varint. -/
def decodeVarintLoop : List Nat → Nat → Nat → Nat → Except VarintError (Nat × Nat)
  | buf, shift, acc, pos =>
    if 64 ≤ shift then
      .error .tooLong
    else
      match buf with
      | [] => .error .truncated
      | b :: rest =>
        let acc' := acc + b % 128 * 2 ^ shift
        if 128 ≤ b then decodeVarintLoop rest (shift + 7) acc' (pos + 1)
        else .ok (acc', pos + 1)

/-- `betterproto.decode_varint(buffer, 0)`. -/
def decodeVarint (buf : List Nat) : Except VarintError (Nat × Nat) :=
  decodeVarintLoop buf 0 0 0

/-- `betterproto.encode_varint`: emit low seven bits with the continuation bit
while more than `0x7F` remains, then the final byte. -/
def encodeVarint (v : Nat) : List Nat :=
  if h : 127 < v then (v % 128 + 128) :: encodeVarint (v / 128) else [v]
decreasing_by exact Nat.div_lt_self (by omega) (by omega)

/-! ### Frame codec: `Protocol.data_received` and `Protocol.process_response` -/

/-- A connection-fatal framing failure: the varint decoder raised while the
`data_received` loop was parsing the buffer. -/
inductive FrameError where
  | varint (e : VarintError)
deriving DecidableEq

/-- The `while len(self.buffer):` loop of `Protocol.data_received`: decode the
length prefix, extract `buffer[pos:pos+length]` when the buffer holds at least
`pos + length` bytes and continue, otherwise break.  `fuel` bounds the number
of iterations; `data_received` passes the buffer length, which suffices
because every extraction removes at least one byte.  Returns the list of
extracted frame payloads, in extraction order, and the remaining buffer. -/
def drLoop : Nat → List Nat → Except FrameError (List (List Nat) × List Nat)
  | 0, buf => .ok ([], buf)
  | fuel + 1, buf =>
    if buf = [] then .ok ([], buf)
    else
      match decodeVarint buf with
      | .error e => .error (.varint e)
      | .ok (result, pos) =>
        let length := result >>> 1
        if pos + length ≤ buf.length then
          match drLoop fuel (buf.drop (pos + length)) with
          | .ok (frames, b) => .ok ((buf.drop pos).take length :: frames, b)
          | .error e => .error e
        else
          .ok ([], buf)

/-- `Protocol.data_received`: append the new data to the accumulation buffer
and run the extraction loop. -/
def dataReceived (buffer data : List Nat) : Except FrameError (List (List Nat) × List Nat) :=
  drLoop (buffer ++ data).length (buffer ++ data)

/-- The outgoing side of the codec (`Protocol.process_response`):
`encode_varint(len(data) << 1)` followed by the payload, two writes in
transport order. -/
def encodeFrame (payload : List Nat) : List Nat :=
  encodeVarint (payload.length <<< 1) ++ payload

/-- Feed a sequence of fragments into a fresh connection's `data_received`,
collecting every frame extracted along the way, threading the accumulation
buffer; an extraction failure aborts the connection. -/
def feedGo : List (List Nat) → List (List Nat) → List Nat →
    Except FrameError (List (List Nat) × List Nat)
  | [], frames, buf => .ok (frames, buf)
  | d :: ds, frames, buf =>
    match dataReceived buf d with
    | .ok (fs, buf') => feedGo ds (frames ++ fs) buf'
    | .error e => .error e

/-- All frames and the final buffer obtained by feeding `frags` one
`data_received` call at a time, starting from an empty buffer. -/
def feedFragments (frags : List (List Nat)) : Except FrameError (List (List Nat) × List Nat) :=
  feedGo frags [] []

/-! ### Requests, handlers, dispatch (`Protocol.process_request.async_response`) -/

/-- A decoded request payload; `message` is the `.message` field that an echo
request carries. -/
structure Msg where
  message : String
deriving DecidableEq

/-- A response payload: `ResponseEcho(message)`, `ResponseFlush()`, or a
response produced by an application handler. -/
inductive Resp where
  | echo (message : String)
  | flush
  | app (payload : String)
deriving DecidableEq

/-- A dispatch-unit failure.  `notImplemented name` is
`NotImplementedError(f'Async ABCI Method `{name}` is not implemented')`. -/
inductive Err where
  | notImplemented (name : String)
deriving DecidableEq

/-- Outcome of one dispatch unit's computation: a response to write, or a
raised error. -/
inductive Outcome where
  | ok (r : Resp)
  | err (e : Err)
deriving DecidableEq

/-- An application handler: `getattr(self.handler, name, None)` is `ops name`;
an operation takes the decoded request and returns an optional response
(`None` when the coroutine returns no value). -/
structure Handler where
  ops : String → Option (Msg → Option Resp)

/-- The four handler classes passed to `app.get_connection_handler`. -/
inductive HClass where
  | infoH
  | consensusH
  | stateSyncH
  | mempoolH
deriving DecidableEq

/-- The application's handler factory `get_connection_handler`, keyed by
handler class. -/
def App : Type := HClass → Handler

/-- The handler-binding block of `async_response` (`create handler if
missing`): while no handler is bound, the request name selects the handler
class to bind; names outside every set leave the connection unbound. -/
def bindHandler (app : App) (h : Option Handler) (name : String) : Option Handler :=
  match h with
  | some _ => h
  | none =>
    if name ∈ ["info", "set_option", "query"] then
      some (app HClass.infoH)
    else if name ∈ ["init_chain", "begin_block", "deliver_tx", "end_block", "commit"] then
      some (app HClass.consensusH)
    else if name ∈ ["list_snapshots", "offer_snapshot", "load_snapshot_chunk",
        "apply_snapshot_chunk"] then
      some (app HClass.stateSyncH)
    else if name = "check_tx" then
      some (app HClass.mempoolH)
    else
      none

/-- The bound-handler attempt of `async_response`: if a handler is bound and
exposes an operation under `name`, invoke it; otherwise no response. -/
def handlerResponse (h : Option Handler) (name : String) (msg : Msg) : Option Resp :=
  match h with
  | some hd =>
    match hd.ops name with
    | some op => op msg
    | none => none
  | none => none

/-- `Protocol.process_request.async_response`: bind a handler if missing, try
the bound handler's operation, fall back to the built-in echo / flush
synthesis, and fail with `NotImplementedError` when no response was produced.
Returns the handler state after the call and the unit's outcome. -/
def asyncResponse (app : App) (h : Option Handler) (name : String) (msg : Msg) :
    Option Handler × Outcome :=
  let h' := bindHandler app h name
  let response := handlerResponse h' name msg
  let response :=
    match response with
    | some r => some r
    | none =>
      if name = "echo" then some (.echo msg.message)
      else if name = "flush" then some .flush
      else none
  match response with
  | some r => (h', .ok r)
  | none => (h', .err (.notImplemented name))

/-- The handler state of a connection after a sequence of requests has been
dispatched, threading `self.handler` through `async_response`. -/
def runRequests (app : App) (h : Option Handler) : List (String × Msg) → Option Handler
  | [] => h
  | (n, m) :: rs => runRequests app (asyncResponse app h n m).1 rs

/-! ### Ordered dispatch queue (`process_response_tasks` / `process_response_task`) -/

/-- State of one dispatch unit's task: still running, or finished with an
outcome. -/
inductive TStatus where
  | pending
  | done (o : Outcome)
deriving DecidableEq

/-- Per-connection dispatch state: the `self.tasks` deque of units in arrival
order, the log of outcomes drained from the head of the queue (in drain
order), and the next arrival index. -/
structure QState where
  tasks : List (Nat × TStatus)
  emitted : List (Nat × Outcome)
  nextId : Nat

/-- `Protocol.process_response_task` on the head unit: on success the result
is handed to `process_response` (the outgoing encoder), on failure the
exception is re-raised; in both cases the `finally` block removes the unit
from the queue.  Returns the queue after removal, the emission log, and the
propagated exception if any. -/
def processResponseTask (id : Nat) (o : Outcome) (tasks : List (Nat × TStatus))
    (em : List (Nat × Outcome)) :
    List (Nat × TStatus) × List (Nat × Outcome) × Option Err :=
  match o with
  | .ok r => (tasks.erase (id, .done (.ok r)), em ++ [(id, .ok r)], none)
  | .err e => (tasks.erase (id, .done (.err e)), em ++ [(id, .err e)], some e)

/-- The `while len(self.tasks):` loop of `Protocol.process_response_tasks`:
while the head unit is done, drain it (removal happens in the `finally` of
`process_response_task` whether it succeeded or raised); a raised exception
propagates out of the loop; stop at the first pending head. -/
def drainLoop : List (Nat × TStatus) → List (Nat × Outcome) →
    List (Nat × TStatus) × List (Nat × Outcome) × Option Err
  | [], em => ([], em, none)
  | (id, .pending) :: rest, em => ((id, .pending) :: rest, em, none)
  | (id, .done (.ok r)) :: rest, em => drainLoop rest (em ++ [(id, .ok r)])
  | (id, .done (.err e)) :: rest, em => (rest, em ++ [(id, .err e)], some e)

/-- Mark the task with arrival index `i` as finished with outcome `o` (the
completion of its `async_response` coroutine). -/
def markDone (i : Nat) (o : Outcome) : List (Nat × TStatus) → List (Nat × TStatus) :=
  List.map fun u =>
    match u with
    | (id, .pending) => if id = i then (id, .done o) else u
    | _ => u

/-- Scheduler-visible events on one connection: `Protocol.process_request`
appending a fresh unit to the queue, or a unit's computation completing, which
fires the done callback and drains the queue. -/
inductive Event where
  | enqueue
  | complete (i : Nat) (o : Outcome)

/-- One event step on the dispatch state. -/
def stepQ (s : QState) : Event → QState
  | .enqueue =>
    { s with tasks := s.tasks ++ [(s.nextId, .pending)], nextId := s.nextId + 1 }
  | .complete i o =>
    let ts := markDone i o s.tasks
    let r := drainLoop ts s.emitted
    { s with tasks := r.1, emitted := r.2.1 }

/-- A fresh connection's dispatch state. -/
def initQ : QState := ⟨[], [], 0⟩

/-- Responses actually handed to the outgoing encoder, in emission order:
the successful entries of the emission log (failed units re-raise instead of
being written). -/
def writtenResponses (em : List (Nat × Outcome)) : List (Nat × Resp) :=
  em.filterMap fun u =>
    match u with
    | (id, .ok r) => some (id, r)
    | _ => none

/-! ### Connection loss (`Protocol.connection_lost`) -/

/-- A Python-level runtime failure raised by the standard library. -/
inductive PyError where
  | runtimeError (msg : String)
deriving DecidableEq

/-- Modelled from the asyncio standard library (external dependency): tasks
created by `asyncio.create_task` are `Task` objects, and `Task.set_exception`
is not supported — it unconditionally raises
`RuntimeError("Task does not support set_exception operation")`. -/
def taskSetException (_ : String) (_ : TStatus) : Except PyError TStatus :=
  .error (.runtimeError "Task does not support set_exception operation")

/-- The `close` coroutine of `Protocol.connection_lost`: call
`task.set_exception(exc)` on every queued task, then gather them all.  The
first raised exception aborts the coroutine. -/
def closeGather (exc : String) : List (Nat × TStatus) → Except PyError (List TStatus)
  | [] => .ok []
  | (_, t) :: rest =>
    match taskSetException exc t with
    | .error e => .error e
    | .ok t' =>
      match closeGather exc rest with
      | .ok ts => .ok (t' :: ts)
      | .error e => .error e

/-- `Protocol.connection_lost`: synthesize a `ConnectionResetError` cause when
the transport reports none, then run the `close` coroutine over the pending
queue. -/
def connectionLost (exc : Option String) (tasks : List (Nat × TStatus)) :
    Except PyError (List TStatus) :=
  closeGather (exc.getD "Connection reset") tasks

/-! ### Varint lemmas -/

theorem encodeVarint_length_pos (v : Nat) : 1 ≤ (encodeVarint v).length := by
  rw [encodeVarint]
  split <;> simp

theorem encodeVarint_length_le :
    ∀ (k v : Nat), 1 ≤ k → v < 2 ^ (7 * k) → (encodeVarint v).length ≤ k := by
  intro k
  induction k with
  | zero => omega
  | succ k ih =>
    intro v _ hv
    rw [encodeVarint]
    split
    · rename_i h127
      have hk : 1 ≤ k := by
        by_contra hk0
        have : k = 0 := by omega
        subst this
        simp [Nat.pow_succ] at hv
        omega
      have hdiv : v / 128 < 2 ^ (7 * k) := by
        have h7 : 7 * (k + 1) = 7 * k + 7 := by ring
        rw [h7, Nat.pow_add] at hv
        have : v < 2 ^ (7 * k) * 128 := by norm_num at hv ⊢; omega
        omega
      have := ih (v / 128) hk hdiv
      simpa using this
    · simp

theorem decodeVarintLoop_pos_lt :
    ∀ (buf : List Nat) (shift acc pos r p : Nat),
      decodeVarintLoop buf shift acc pos = .ok (r, p) → pos < p := by
  intro buf
  induction buf with
  | nil =>
    intro shift acc pos r p h
    rw [decodeVarintLoop] at h
    split at h <;> simp_all
  | cons b rest ih =>
    intro shift acc pos r p h
    rw [decodeVarintLoop] at h
    split at h
    · simp_all
    · simp only at h
      split at h
      · have := ih _ _ _ _ _ h
        omega
      · simp only [Except.ok.injEq, Prod.mk.injEq] at h
        omega

theorem decodeVarintLoop_encode (v : Nat) :
    ∀ (rest : List Nat) (shift acc pos : Nat),
      shift + 7 * ((encodeVarint v).length - 1) ≤ 63 →
      decodeVarintLoop (encodeVarint v ++ rest) shift acc pos =
        .ok (acc + v * 2 ^ shift, pos + (encodeVarint v).length) := by
  induction v using Nat.strong_induction_on with
  | _ v ih =>
    intro rest shift acc pos hshift
    by_cases h127 : 127 < v
    · rw [encodeVarint, dif_pos h127] at hshift ⊢
      have hlen1 : 1 ≤ (encodeVarint (v / 128)).length := encodeVarint_length_pos _
      simp only [List.length_cons] at hshift
      rw [List.cons_append, decodeVarintLoop]
      rw [if_neg (by omega)]
      simp only
      rw [if_pos (by omega)]
      have hdivlt : v / 128 < v := Nat.div_lt_self (by omega) (by omega)
      rw [ih (v / 128) hdivlt rest (shift + 7) (acc + (v % 128 + 128) % 128 * 2 ^ shift)
        (pos + 1) (by omega)]
      have hmod : (v % 128 + 128) % 128 = v % 128 := by omega
      have hpow : (2 : Nat) ^ (shift + 7) = 2 ^ shift * 128 := by
        rw [Nat.pow_add]
      have hval : acc + (v % 128 + 128) % 128 * 2 ^ shift + v / 128 * 2 ^ (shift + 7) =
          acc + v * 2 ^ shift := by
        rw [hmod, hpow]
        have hv : v % 128 + 128 * (v / 128) = v := by omega
        calc acc + v % 128 * 2 ^ shift + v / 128 * (2 ^ shift * 128)
            = acc + (v % 128 + 128 * (v / 128)) * 2 ^ shift := by ring
          _ = acc + v * 2 ^ shift := by rw [hv]
      rw [hval]
      congr 2
      simp only [List.length_cons]
      omega
    · rw [encodeVarint, dif_neg h127] at hshift ⊢
      rw [List.cons_append, decodeVarintLoop]
      rw [if_neg (by omega)]
      simp only
      rw [if_neg (by omega)]
      have : v % 128 = v := Nat.mod_eq_of_lt (by omega)
      rw [this]
      simp

theorem decodeVarint_encode (v : Nat) (rest : List Nat)
    (hshift : 7 * ((encodeVarint v).length - 1) ≤ 63) :
    decodeVarint (encodeVarint v ++ rest) = .ok (v, (encodeVarint v).length) := by
  unfold decodeVarint
  rw [decodeVarintLoop_encode v rest 0 0 0 (by omega)]
  simp

theorem decodeVarintLoop_take :
    ∀ (buf : List Nat) (k shift acc pos r p : Nat),
      decodeVarintLoop buf shift acc pos = .ok (r, p) → p - pos ≤ k →
      decodeVarintLoop (buf.take k) shift acc pos = .ok (r, p) := by
  intro buf
  induction buf with
  | nil =>
    intro k shift acc pos r p h
    rw [decodeVarintLoop] at h
    split at h <;> simp_all
  | cons b rest ih =>
    intro k shift acc pos r p h hk
    rw [decodeVarintLoop] at h
    split at h
    · simp_all
    · simp only at h
      split at h
      · have hlt := decodeVarintLoop_pos_lt _ _ _ _ _ _ h
        obtain ⟨k', rfl⟩ : ∃ k', k = k' + 1 := ⟨k - 1, by omega⟩
        rw [List.take_succ_cons, decodeVarintLoop]
        rw [if_neg (by rename_i hs _; exact hs)]
        simp only
        rw [if_pos (by assumption)]
        exact ih k' _ _ _ _ _ h (by omega)
      · simp only [Except.ok.injEq, Prod.mk.injEq] at h
        obtain ⟨k', rfl⟩ : ∃ k', k = k' + 1 := ⟨k - 1, by omega⟩
        rw [List.take_succ_cons, decodeVarintLoop]
        rw [if_neg (by rename_i hs _; exact hs)]
        simp only
        rw [if_neg (by assumption)]
        simp [h.1, h.2]

theorem decodeVarint_take (buf : List Nat) (k r p : Nat)
    (h : decodeVarint buf = .ok (r, p)) (hk : p ≤ k) :
    decodeVarint (buf.take k) = .ok (r, p) :=
  decodeVarintLoop_take buf k 0 0 0 r p h (by omega)

theorem decodeVarint_pos_lt (buf : List Nat) (r p : Nat)
    (h : decodeVarint buf = .ok (r, p)) : 1 ≤ p := by
  have := decodeVarintLoop_pos_lt buf 0 0 0 r p h
  omega

/-! ### Frame-extraction lemmas -/

/-- The bytes `stream` parse completely into the frame payloads `frames`: the
stream is a concatenation of wire frames, each one a varint length prefix
announcing `r >>> 1` payload bytes followed by exactly that many bytes. -/
inductive Parses : List Nat → List (List Nat) → Prop where
  | nil : Parses [] []
  | step (b rest : List Nat) (fs : List (List Nat)) (r pos : Nat)
      (hdec : decodeVarint b = .ok (r, pos))
      (hlen : b.length = pos + (r >>> 1))
      (hrest : Parses rest fs) :
      Parses (b ++ rest) (b.drop pos :: fs)

theorem Parses.append :
    ∀ {s₁ s₂ : List Nat} {f₁ f₂ : List (List Nat)},
      Parses s₁ f₁ → Parses s₂ f₂ → Parses (s₁ ++ s₂) (f₁ ++ f₂) := by
  intro s₁ s₂ f₁ f₂ h₁ h₂
  induction h₁ with
  | nil => simpa using h₂
  | step b rest fs r pos hdec hlen hrest ih =>
    rw [List.append_assoc, List.cons_append]
    exact Parses.step b (rest ++ s₂) (fs ++ f₂) r pos hdec hlen ih

theorem drLoop_ok :
    ∀ (fuel : Nat) (buf frames buf' : _),
      buf.length ≤ fuel →
      drLoop fuel buf = .ok (frames, buf') →
      (∃ consumed, buf = consumed ++ buf' ∧ Parses consumed frames) ∧
      (buf' ≠ [] →
        ∃ r pos, decodeVarint buf' = .ok (r, pos) ∧ buf'.length < pos + (r >>> 1)) := by
  intro fuel
  induction fuel with
  | zero =>
    intro buf frames buf' hle h
    have hbuf : buf = [] := by
      cases buf with
      | nil => rfl
      | cons a l => simp at hle
    subst hbuf
    rw [drLoop] at h
    simp only [Except.ok.injEq, Prod.mk.injEq] at h
    obtain ⟨hf, hb⟩ := h
    subst hf; subst hb
    exact ⟨⟨[], by simp, Parses.nil⟩, by simp⟩
  | succ fuel ih =>
    intro buf frames buf' hle h
    rw [drLoop] at h
    by_cases hbuf : buf = []
    · rw [if_pos hbuf] at h
      simp only [Except.ok.injEq, Prod.mk.injEq] at h
      obtain ⟨hf, hb⟩ := h
      subst hf; subst hb; subst hbuf
      exact ⟨⟨[], by simp, Parses.nil⟩, by simp⟩
    · rw [if_neg hbuf] at h
      cases hdec : decodeVarint buf with
      | error e => rw [hdec] at h; simp at h
      | ok vp =>
        obtain ⟨result, pos⟩ := vp
        rw [hdec] at h
        simp only at h
        by_cases henough : pos + result >>> 1 ≤ buf.length
        · rw [if_pos henough] at h
          cases hrec : drLoop fuel (buf.drop (pos + result >>> 1)) with
          | error e => rw [hrec] at h; simp at h
          | ok fb =>
            obtain ⟨frames0, b0⟩ := fb
            rw [hrec] at h
            simp only [Except.ok.injEq, Prod.mk.injEq] at h
            obtain ⟨hf, hb⟩ := h
            have hpos1 : 1 ≤ pos := decodeVarint_pos_lt buf result pos hdec
            have hlenrec : (buf.drop (pos + result >>> 1)).length ≤ fuel := by
              simp only [List.length_drop]
              omega
            obtain ⟨⟨consumed0, hsplit0, hparse0⟩, hpart⟩ :=
              ih (buf.drop (pos + result >>> 1)) frames0 b0 hlenrec hrec
            refine ⟨⟨buf.take (pos + result >>> 1) ++ consumed0, ?_, ?_⟩, ?_⟩
            · rw [← hb, List.append_assoc, ← hsplit0, List.take_append_drop]
            · have hstep := Parses.step (buf.take (pos + result >>> 1)) consumed0 frames0
                result pos
                (decodeVarint_take buf (pos + result >>> 1) result pos hdec (by omega))
                (by simp only [List.length_take]; omega)
                hparse0
              have hframe : (buf.take (pos + result >>> 1)).drop pos =
                  (buf.drop pos).take (result >>> 1) := by
                rw [List.drop_take]
                congr 1
                omega
              rw [hframe] at hstep
              rw [← hf]
              exact hstep
            · rw [← hb]
              exact hpart
        · rw [if_neg henough] at h
          simp only [Except.ok.injEq, Prod.mk.injEq] at h
          obtain ⟨hf, hb⟩ := h
          subst hf
          refine ⟨⟨[], by simp [hb], Parses.nil⟩, ?_⟩
          intro _
          exact ⟨result, pos, by rw [← hb]; exact hdec, by rw [← hb]; omega⟩

theorem dataReceived_ok (buffer data : List Nat) (frames buf' : _)
    (h : dataReceived buffer data = .ok (frames, buf')) :
    (∃ consumed, buffer ++ data = consumed ++ buf' ∧ Parses consumed frames) ∧
    (buf' ≠ [] →
      ∃ r pos, decodeVarint buf' = .ok (r, pos) ∧ buf'.length < pos + (r >>> 1)) :=
  drLoop_ok (buffer ++ data).length (buffer ++ data) frames buf' (Nat.le_refl _) h

theorem feedGo_parses :
    ∀ (ds frames0 : List (List Nat)) (buf : List Nat) (F : List (List Nat)) (B : List Nat),
      feedGo ds frames0 buf = .ok (F, B) →
      ∃ consumed newF, F = frames0 ++ newF ∧
        buf ++ ds.flatten = consumed ++ B ∧ Parses consumed newF ∧
        (B ≠ [] → (ds = [] ∧ B = buf) ∨
          ∃ r pos, decodeVarint B = .ok (r, pos) ∧ B.length < pos + (r >>> 1)) := by
  intro ds
  induction ds with
  | nil =>
    intro frames0 buf F B h
    rw [feedGo] at h
    simp only [Except.ok.injEq, Prod.mk.injEq] at h
    obtain ⟨hF, hB⟩ := h
    exact ⟨[], [], by simp [hF], by simp [hB], Parses.nil, fun _ => Or.inl ⟨rfl, hB.symm⟩⟩
  | cons d ds ih =>
    intro frames0 buf F B h
    rw [feedGo] at h
    cases hdr : dataReceived buf d with
    | error e => rw [hdr] at h; simp at h
    | ok fb =>
      obtain ⟨fs, buf1⟩ := fb
      rw [hdr] at h
      simp only at h
      obtain ⟨⟨c1, hsplit1, hp1⟩, hpart1⟩ := dataReceived_ok buf d fs buf1 hdr
      obtain ⟨c2, newF2, hF, hsplit2, hp2, hpart2⟩ := ih (frames0 ++ fs) buf1 F B h
      refine ⟨c1 ++ c2, fs ++ newF2, by rw [hF, List.append_assoc], ?_, hp1.append hp2, ?_⟩
      · rw [List.flatten_cons, ← List.append_assoc, hsplit1, List.append_assoc, hsplit2,
          List.append_assoc]
      · intro hBne
        rcases hpart2 hBne with ⟨_, hBbuf1⟩ | hins
        · rcases hpart1 (by rw [← hBbuf1]; exact hBne) with ⟨r, pos, hd, hl⟩
          exact Or.inr ⟨r, pos, by rw [hBbuf1]; exact hd, by rw [hBbuf1]; exact hl⟩
        · exact Or.inr hins

theorem drLoop_nil : ∀ fuel, drLoop fuel [] = .ok ([], []) := by
  intro fuel
  cases fuel with
  | zero => rfl
  | succ f => rw [drLoop]; simp

theorem shiftLeft_one_shiftRight_one (n : Nat) : (n <<< 1) >>> 1 = n := by
  simp [Nat.shiftLeft_eq, Nat.shiftRight_eq_div_pow]

theorem encodeFrame_length (payload : List Nat) :
    (encodeFrame payload).length =
      (encodeVarint (payload.length <<< 1)).length + payload.length := by
  simp [encodeFrame]

theorem encodeFrame_take (payload : List Nat) (c : Nat)
    (hc : (encodeVarint (payload.length <<< 1)).length ≤ c) :
    (encodeFrame payload).take c =
      encodeVarint (payload.length <<< 1) ++
        payload.take (c - (encodeVarint (payload.length <<< 1)).length) := by
  rw [encodeFrame, List.take_append_eq_append_take, List.take_of_length_le hc]

theorem dr_incomplete (payload : List Nat) (c : Nat)
    (h63 : 7 * ((encodeVarint (payload.length <<< 1)).length - 1) ≤ 63)
    (hp : (encodeVarint (payload.length <<< 1)).length ≤ c)
    (hlt : c < (encodeFrame payload).length) :
    ∀ fuel, drLoop fuel ((encodeFrame payload).take c) =
      .ok ([], (encodeFrame payload).take c) := by
  intro fuel
  cases fuel with
  | zero => rw [drLoop]
  | succ f =>
    have hplen : 1 ≤ (encodeVarint (payload.length <<< 1)).length := encodeVarint_length_pos _
    have hbuflen : ((encodeFrame payload).take c).length = c := by
      simp only [List.length_take]
      omega
    rw [drLoop, if_neg (by intro hnil; rw [hnil] at hbuflen; simp at hbuflen; omega)]
    rw [encodeFrame_take payload c hp,
      decodeVarint_encode (payload.length <<< 1) _ h63]
    simp only [shiftLeft_one_shiftRight_one]
    rw [if_neg (by
      rw [← encodeFrame_take payload c hp, hbuflen]
      rw [encodeFrame_length] at hlt
      omega)]

theorem dr_complete (payload : List Nat)
    (h63 : 7 * ((encodeVarint (payload.length <<< 1)).length - 1) ≤ 63) :
    ∀ fuel, 1 ≤ fuel → drLoop fuel (encodeFrame payload) = .ok ([payload], []) := by
  intro fuel hfuel
  obtain ⟨f, rfl⟩ : ∃ f, fuel = f + 1 := ⟨fuel - 1, by omega⟩
  have hplen : 1 ≤ (encodeVarint (payload.length <<< 1)).length := encodeVarint_length_pos _
  have hne : encodeFrame payload ≠ [] := by
    have h1 := encodeFrame_length payload
    intro hnil
    rw [hnil] at h1
    simp only [List.length_nil] at h1
    omega
  rw [drLoop, if_neg hne]
  rw [encodeFrame, decodeVarint_encode (payload.length <<< 1) _ h63]
  simp only [shiftLeft_one_shiftRight_one]
  rw [if_pos (by simp)]
  have hdrop : (encodeVarint (payload.length <<< 1) ++ payload).drop
      ((encodeVarint (payload.length <<< 1)).length + payload.length) = [] := by
    rw [List.drop_eq_nil_iff]
    simp
  rw [hdrop, drLoop_nil]
  rw [List.drop_left, List.take_length]

theorem feedGo_inv (payload : List Nat)
    (h63 : 7 * ((encodeVarint (payload.length <<< 1)).length - 1) ≤ 63) :
    ∀ (ds : List (List Nat)) (c : Nat) (frames : List (List Nat)) (buf : List Nat),
      (encodeFrame payload).drop c = ds.flatten →
      (∀ i, c + ((ds.take i).flatten).length = 0 ∨
        (encodeVarint (payload.length <<< 1)).length ≤ c + ((ds.take i).flatten).length) →
      ((c = 0 ∧ buf = [] ∧ frames = []) ∨
       ((encodeVarint (payload.length <<< 1)).length ≤ c ∧ c < (encodeFrame payload).length ∧
         buf = (encodeFrame payload).take c ∧ frames = []) ∨
       (c = (encodeFrame payload).length ∧ buf = [] ∧ frames = [payload])) →
      feedGo ds frames buf = .ok ([payload], []) := by
  have hplen : 1 ≤ (encodeVarint (payload.length <<< 1)).length := encodeVarint_length_pos _
  have henclen := encodeFrame_length payload
  intro ds
  induction ds with
  | nil =>
    intro c frames buf hds _ hstate
    rw [List.flatten_nil, List.drop_eq_nil_iff] at hds
    rcases hstate with ⟨hc0, hbuf, hfr⟩ | ⟨_, hclt, _, _⟩ | ⟨hc, hbuf, hfr⟩
    · omega
    · omega
    · subst hbuf; subst hfr
      rw [feedGo]
  | cons d ds ih =>
    intro c frames buf hds hpre hstate
    rw [List.flatten_cons] at hds
    have hdc : d = ((encodeFrame payload).drop c).take d.length := by
      rw [hds, List.take_left]
    have hlen_le : c + d.length ≤ (encodeFrame payload).length := by
      have hlds := congrArg List.length hds
      simp only [List.length_drop, List.length_append] at hlds
      omega
    have hds' : (encodeFrame payload).drop (c + d.length) = ds.flatten := by
      rw [← List.drop_drop, hds, List.drop_left]
    have hpre' : ∀ i, (c + d.length) + ((ds.take i).flatten).length = 0 ∨
        (encodeVarint (payload.length <<< 1)).length ≤
          (c + d.length) + ((ds.take i).flatten).length := by
      intro i
      have h := hpre (i + 1)
      simp only [List.take_succ_cons, List.flatten_cons, List.length_append] at h
      omega
    have hcnew : c + d.length = 0 ∨
        (encodeVarint (payload.length <<< 1)).length ≤ c + d.length := by
      have h := hpre 1
      simp only [List.take_succ_cons, List.take_zero, List.flatten_cons, List.flatten_nil,
        List.append_nil] at h
      omega
    rcases hstate with ⟨hc0, hbuf, hfr⟩ | ⟨hpc, hclt, hbuf, hfr⟩ | ⟨hc, hbuf, hfr⟩
    · -- nothing received yet
      subst hc0; subst hbuf; subst hfr
      rw [List.drop_zero] at hdc hds
      rcases hcnew with hz | hge
      · have hd0 : d = [] := List.length_eq_zero.mp (by omega)
        subst hd0
        have hdr : dataReceived [] ([] : List Nat) = .ok ([], []) := rfl
        rw [feedGo, hdr]
        exact ih 0 ([] ++ []) [] (by simpa using hds') (by simpa using hpre')
          (Or.inl ⟨rfl, rfl, rfl⟩)
      · simp only [Nat.zero_add] at hge hds' hpre'
        by_cases hfull : d.length < (encodeFrame payload).length
        · have hdr : dataReceived [] d = .ok ([], d) := by
            rw [dataReceived]
            simp only [List.nil_append]
            conv_lhs => rw [hdc]
            conv_rhs => rw [hdc]
            exact dr_incomplete payload d.length h63 hge hfull _
          rw [feedGo, hdr]
          exact ih d.length ([] ++ []) d hds' hpre'
            (Or.inr (Or.inl ⟨hge, hfull, hdc, rfl⟩))
        · have hdl : d.length = (encodeFrame payload).length := by omega
          have hdenc : d = encodeFrame payload := by
            rw [hdc, hdl, List.take_length]
          have hdr : dataReceived [] d = .ok ([payload], []) := by
            rw [dataReceived]
            simp only [List.nil_append]
            rw [hdenc]
            exact dr_complete payload h63 _ (by omega)
          rw [feedGo, hdr]
          exact ih d.length ([] ++ [payload]) [] hds' hpre'
            (Or.inr (Or.inr ⟨hdl, rfl, rfl⟩))
    · -- a complete prefix but not yet the whole frame is buffered
      subst hbuf; subst hfr
      have hbd : (encodeFrame payload).take c ++ d = (encodeFrame payload).take (c + d.length) := by
        rw [List.take_add, ← hdc]
      rcases hcnew with hz | hge
      · omega
      · by_cases hfull : c + d.length < (encodeFrame payload).length
        · have hdr : dataReceived ((encodeFrame payload).take c) d =
              .ok ([], (encodeFrame payload).take (c + d.length)) := by
            rw [dataReceived, hbd]
            exact dr_incomplete payload (c + d.length) h63 hge hfull _
          rw [feedGo, hdr]
          exact ih (c + d.length) ([] ++ []) _ hds' hpre'
            (Or.inr (Or.inl ⟨hge, hfull, rfl, rfl⟩))
        · have hdl : c + d.length = (encodeFrame payload).length := by omega
          have hdr : dataReceived ((encodeFrame payload).take c) d = .ok ([payload], []) := by
            rw [dataReceived, hbd, hdl, List.take_length]
            exact dr_complete payload h63 _ (by omega)
          rw [feedGo, hdr]
          exact ih (c + d.length) ([] ++ [payload]) [] hds' hpre'
            (Or.inr (Or.inr ⟨hdl, rfl, rfl⟩))
    · -- the whole frame has been extracted already
      subst hbuf; subst hfr
      have hnil : d = [] ∧ ds.flatten = [] := by
        have : (encodeFrame payload).drop c = [] := by
          rw [List.drop_eq_nil_iff]; omega
        rw [this] at hds
        exact List.append_eq_nil.mp hds.symm
      obtain ⟨hd0, hfl⟩ := hnil
      subst hd0
      have hdr : dataReceived [] ([] : List Nat) = .ok ([], []) := rfl
      rw [feedGo, hdr]
      exact ih c ([payload] ++ []) [] (by simpa using hds') (by simpa using hpre')
        (Or.inr (Or.inr ⟨hc, rfl, by simp⟩))

/-! ### Dispatch-queue lemmas -/

theorem drainLoop_ids (ts : List (Nat × TStatus)) :
    ∀ em : List (Nat × Outcome),
      (drainLoop ts em).2.1.map Prod.fst ++ (drainLoop ts em).1.map Prod.fst =
        em.map Prod.fst ++ ts.map Prod.fst := by
  induction ts with
  | nil => intro em; simp [drainLoop]
  | cons u rest ih =>
    intro em
    obtain ⟨id, st⟩ := u
    cases st with
    | pending => simp [drainLoop]
    | done o =>
      cases o with
      | ok r =>
        rw [drainLoop, ih]
        simp
      | err e =>
        rw [drainLoop]
        simp

theorem markDone_ids (i : Nat) (o : Outcome) (ts : List (Nat × TStatus)) :
    (markDone i o ts).map Prod.fst = ts.map Prod.fst := by
  unfold markDone
  rw [List.map_map]
  apply List.map_congr_left
  intro u _
  obtain ⟨id, st⟩ := u
  cases st with
  | pending =>
    simp only [Function.comp_apply]
    split <;> rfl
  | done o' => rfl

/-- The central queue invariant: the ids already emitted, followed by the ids
still queued, are exactly the arrival order `0, 1, …, nextId - 1`. -/
def qInv (s : QState) : Prop :=
  s.emitted.map Prod.fst ++ s.tasks.map Prod.fst = List.range s.nextId

theorem stepQ_preserves (s : QState) (e : Event) (h : qInv s) : qInv (stepQ s e) := by
  cases e with
  | enqueue =>
    unfold qInv at h ⊢
    simp only [stepQ, List.map_append, List.map_cons, List.map_nil]
    rw [List.range_succ, ← List.append_assoc, ← h]
  | complete i o =>
    unfold qInv at h ⊢
    simp only [stepQ]
    rw [drainLoop_ids, markDone_ids]
    exact h

theorem foldl_stepQ_inv (evs : List Event) :
    ∀ s : QState, qInv s → qInv (evs.foldl stepQ s) := by
  induction evs with
  | nil => intro s h; exact h
  | cons e evs ih =>
    intro s h
    exact ih (stepQ s e) (stepQ_preserves s e h)

/-! ### Dispatch helpers -/

theorem asyncResponse_fst (app : App) (h : Option Handler) (name : String) (msg : Msg) :
    (asyncResponse app h name msg).1 = bindHandler app h name := by
  simp only [asyncResponse]
  split <;> rfl

/-- A concrete application whose handlers expose no operations, used to
instantiate theorems at concrete inputs. -/
def noopApp : App := fun _ => ⟨fun _ => none⟩

/-! ### Claim theorems -/

/-- C1: over every event history of a connection — requests enqueued in
arrival order, unit computations completing in arbitrary order, every
completion draining the queue from its head — the outcomes handed to the
outgoing path are exactly an initial segment of the arrival order: the
emitted ids followed by the still-queued ids are `0, 1, …, nextId - 1`, and
the emitted ids themselves are `0, 1, …` in order, so a unit's outcome is
emitted only when it is at the head and all earlier units have been emitted. -/
theorem C1_ordered_emission (evs : List Event) :
    (evs.foldl stepQ initQ).emitted.map Prod.fst ++
        (evs.foldl stepQ initQ).tasks.map Prod.fst =
      List.range (evs.foldl stepQ initQ).nextId ∧
    (evs.foldl stepQ initQ).emitted.map Prod.fst =
      List.range (evs.foldl stepQ initQ).emitted.length := by
  have hinv : qInv (evs.foldl stepQ initQ) := foldl_stepQ_inv evs initQ rfl
  unfold qInv at hinv
  refine ⟨hinv, ?_⟩
  have hlen : ((evs.foldl stepQ initQ).emitted.map Prod.fst).length ≤
      (evs.foldl stepQ initQ).nextId := by
    have h := congrArg List.length hinv
    simp only [List.length_append, List.length_range] at h
    omega
  calc (evs.foldl stepQ initQ).emitted.map Prod.fst
      = (((evs.foldl stepQ initQ).emitted.map Prod.fst) ++
          ((evs.foldl stepQ initQ).tasks.map Prod.fst)).take
            (((evs.foldl stepQ initQ).emitted.map Prod.fst).length) := by
        rw [List.take_left]
    _ = (List.range (evs.foldl stepQ initQ).nextId).take
          (((evs.foldl stepQ initQ).emitted.map Prod.fst).length) := by rw [hinv]
    _ = List.range ((evs.foldl stepQ initQ).emitted.length) := by
        rw [List.take_range, Nat.min_eq_left (by simpa using hlen), List.length_map]

/-- C9: draining the head unit removes it from the queue exactly once, on the
success path and on the failure path alike, because the removal sits in the
`finally` block of `process_response_task`; a failed unit therefore never
remains at the head to be drained again. -/
theorem C9_head_removed_on_both_paths (id : Nat) (o : Outcome)
    (rest : List (Nat × TStatus)) (em : List (Nat × Outcome)) :
    (processResponseTask id o ((id, .done o) :: rest) em).1 = rest := by
  cases o with
  | ok r => simp [processResponseTask]
  | err e => simp [processResponseTask]

/-- C7: when the bound handler produced no response for a request whose name
is neither echo nor flush, the dispatch unit fails with the
unimplemented-operation error naming the request; at drain time the failure
is re-raised out of the drain loop (a propagated connection-level fault) and
nothing is handed to the outgoing encoder for it. -/
theorem C7_unimplemented_error (app : App) (h : Option Handler) (name : String) (msg : Msg)
    (id : Nat) (e : Err) (rest : List (Nat × TStatus)) (em : List (Nat × Outcome)) :
    (handlerResponse (bindHandler app h name) name msg = none → name ≠ "echo" →
      name ≠ "flush" → (asyncResponse app h name msg).2 = .err (.notImplemented name)) ∧
    drainLoop ((id, .done (.err e)) :: rest) em = (rest, em ++ [(id, .err e)], some e) ∧
    writtenResponses (em ++ [(id, .err e)]) = writtenResponses em := by
  refine ⟨?_, rfl, ?_⟩
  · intro h1 h2 h3
    simp only [asyncResponse, h1, if_neg h2, if_neg h3]
  · simp [writtenResponses]

theorem C7_unimplemented_error_witness :
    (asyncResponse noopApp none "begin_block" ⟨"m"⟩).2 =
      .err (.notImplemented "begin_block") ∧
    drainLoop [(0, .done (.err (.notImplemented "begin_block")))] [] =
      ([], [(0, .err (.notImplemented "begin_block"))], some (.notImplemented "begin_block")) := by
  have h := C7_unimplemented_error noopApp none "begin_block" ⟨"m"⟩ 0
    (.notImplemented "begin_block") [] []
  exact ⟨h.1 rfl (by decide) (by decide), by simpa using h.2.1⟩

/-- C6: an echo request processed while no handler is bound yields a response
carrying exactly the request's message and a flush request yields the empty
acknowledgement; neither binds a handler, and a whole history of echo/flush
requests leaves the connection unbound. -/
theorem C6_echo_flush (app : App) (msg : Msg) (reqs : List (String × Msg)) :
    asyncResponse app none "echo" msg = (none, .ok (.echo msg.message)) ∧
    asyncResponse app none "flush" msg = (none, .ok .flush) ∧
    ((∀ r ∈ reqs, r.1 = "echo" ∨ r.1 = "flush") → runRequests app none reqs = none) := by
  refine ⟨rfl, rfl, ?_⟩
  induction reqs with
  | nil => intro _; rfl
  | cons r rs ih =>
    intro hall
    obtain ⟨n, m⟩ := r
    have hn := hall (n, m) (by simp)
    have h1 : (asyncResponse app none n m).1 = none := by
      rw [asyncResponse_fst]
      rcases hn with rfl | rfl <;> rfl
    rw [runRequests, h1]
    exact ih (fun x hx => hall x (List.mem_cons_of_mem _ hx))

theorem C6_echo_flush_witness :
    asyncResponse noopApp none "echo" ⟨"M"⟩ = (none, .ok (.echo "M")) ∧
    runRequests noopApp none [("echo", ⟨"a"⟩), ("flush", ⟨"b"⟩)] = none := by
  have h := C6_echo_flush noopApp ⟨"M"⟩ [("echo", ⟨"a"⟩), ("flush", ⟨"b"⟩)]
  refine ⟨h.1, h.2.2 ?_⟩
  intro r hr
  simp only [List.mem_cons, List.not_mem_nil, or_false] at hr
  rcases hr with rfl | rfl
  · exact Or.inl rfl
  · exact Or.inr rfl

/-- C8: while no handler is bound, an informational name binds the
informational handler, a consensus name the consensus handler, a state-sync
name the state-sync handler and `check_tx` the mempool handler; any other
name leaves the connection unbound, and the classifier then treats the next
request exactly like a first request. -/
theorem C8_classifier (app : App) (name : String) (msg : Msg) :
    (asyncResponse app none name msg).1 = bindHandler app none name ∧
    (name ∈ ["info", "set_option", "query"] →
      bindHandler app none name = some (app HClass.infoH)) ∧
    (name ∈ ["init_chain", "begin_block", "deliver_tx", "end_block", "commit"] →
      bindHandler app none name = some (app HClass.consensusH)) ∧
    (name ∈ ["list_snapshots", "offer_snapshot", "load_snapshot_chunk",
        "apply_snapshot_chunk"] →
      bindHandler app none name = some (app HClass.stateSyncH)) ∧
    (name = "check_tx" → bindHandler app none name = some (app HClass.mempoolH)) ∧
    (name ∉ ["info", "set_option", "query"] →
      name ∉ ["init_chain", "begin_block", "deliver_tx", "end_block", "commit"] →
      name ∉ ["list_snapshots", "offer_snapshot", "load_snapshot_chunk",
        "apply_snapshot_chunk"] →
      name ≠ "check_tx" →
      bindHandler app none name = none ∧
      ∀ (name' : String) (msg' : Msg),
        asyncResponse app (asyncResponse app none name msg).1 name' msg' =
          asyncResponse app none name' msg') := by
  refine ⟨asyncResponse_fst app none name msg, ?_, ?_, ?_, ?_, ?_⟩
  · intro h
    simp only [List.mem_cons, List.not_mem_nil, or_false] at h
    rcases h with rfl | rfl | rfl <;> rfl
  · intro h
    simp only [List.mem_cons, List.not_mem_nil, or_false] at h
    rcases h with rfl | rfl | rfl | rfl | rfl <;> rfl
  · intro h
    simp only [List.mem_cons, List.not_mem_nil, or_false] at h
    rcases h with rfl | rfl | rfl | rfl <;> rfl
  · intro h
    subst h
    rfl
  · intro h1 h2 h3 h4
    have hb : bindHandler app none name = none := by
      simp only [bindHandler]
      rw [if_neg h1, if_neg h2, if_neg h3, if_neg h4]
    refine ⟨hb, ?_⟩
    intro name' msg'
    rw [asyncResponse_fst, hb]

theorem C8_classifier_witness :
    bindHandler noopApp none "info" = some (noopApp HClass.infoH) ∧
    bindHandler noopApp none "commit" = some (noopApp HClass.consensusH) ∧
    bindHandler noopApp none "offer_snapshot" = some (noopApp HClass.stateSyncH) ∧
    bindHandler noopApp none "check_tx" = some (noopApp HClass.mempoolH) ∧
    bindHandler noopApp none "bogus" = none ∧
    asyncResponse noopApp (asyncResponse noopApp none "bogus" ⟨"x"⟩).1 "info" ⟨"y"⟩ =
      asyncResponse noopApp none "info" ⟨"y"⟩ := by
  refine ⟨(C8_classifier noopApp "info" ⟨"x"⟩).2.1 (by decide),
    (C8_classifier noopApp "commit" ⟨"x"⟩).2.2.1 (by decide),
    (C8_classifier noopApp "offer_snapshot" ⟨"x"⟩).2.2.2.1 (by decide),
    (C8_classifier noopApp "check_tx" ⟨"x"⟩).2.2.2.2.1 rfl,
    ((C8_classifier noopApp "bogus" ⟨"x"⟩).2.2.2.2.2
      (by decide) (by decide) (by decide) (by decide)).1,
    ((C8_classifier noopApp "bogus" ⟨"x"⟩).2.2.2.2.2
      (by decide) (by decide) (by decide) (by decide)).2 "info" ⟨"y"⟩⟩

/-- C10: a bound handler operation that exists for the request's name but
completes while returning no value leaves the request without a response; the
request then falls through to the built-in echo/flush synthesis when its name
is echo or flush and otherwise fails with the unimplemented-operation error. -/
theorem C10_op_returns_none (app : App) (hd : Handler) (name : String) (msg : Msg)
    (op : Msg → Option Resp) (hop : hd.ops name = some op) (hnone : op msg = none) :
    (asyncResponse app (some hd) name msg).2 =
      (if name = "echo" then .ok (.echo msg.message)
       else if name = "flush" then .ok .flush
       else .err (.notImplemented name)) := by
  have hr : handlerResponse (some hd) name msg = none := by
    simp only [handlerResponse, hop, hnone]
  simp only [asyncResponse, bindHandler, hr]
  by_cases h1 : name = "echo"
  · simp [h1]
  · by_cases h2 : name = "flush"
    · simp [h1, h2]
    · simp [h1, h2]

theorem C10_op_returns_none_witness :
    (asyncResponse (fun _ => ⟨fun _ => some fun _ => none⟩)
        (some ⟨fun _ => some fun _ => none⟩) "ping" ⟨"x"⟩).2 =
      .err (.notImplemented "ping") := by
  have h := C10_op_returns_none (fun _ => ⟨fun _ => some fun _ => none⟩)
    ⟨fun _ => some fun _ => none⟩ "ping" ⟨"x"⟩ (fun _ => none) rfl rfl
  simpa using h

/-- C2: the code cannot deliver the claimed behavior.  On connection loss
with one pending dispatch unit, the `close` coroutine calls
`Task.set_exception` on an `asyncio.Task`, which raises `RuntimeError`
instead of forcing the unit into a failed state, so no pending unit is failed
with the disconnect cause. -/
theorem C2_connection_lost_raises :
    connectionLost none [(0, TStatus.pending)] =
      .error (.runtimeError "Task does not support set_exception operation") := rfl

/-- C4 counterexample: the claim fails for fragmentations that split a
multi-byte varint length prefix.  The 64-byte payload's frame starts with the
two-byte prefix `[128, 1]`; feeding `[128]` alone makes `decode_varint` read
past the end of the buffer, so the connection fails with a framing error and
no payload is ever extracted. -/
theorem C4_roundtrip_counterexample :
    ([[128], 1 :: List.replicate 64 0] : List (List Nat)).flatten =
      encodeFrame (List.replicate 64 0) ∧
    feedFragments [[128], 1 :: List.replicate 64 0] = .error (.varint .truncated) ∧
    feedFragments [[128], 1 :: List.replicate 64 0] ≠ .ok ([List.replicate 64 0], []) := by
  have henc : encodeFrame (List.replicate 64 (0 : Nat)) = 128 :: 1 :: List.replicate 64 0 := by
    rw [encodeFrame]
    have h1 : (List.replicate 64 (0 : Nat)).length <<< 1 = 128 := by
      rw [List.length_replicate]
      rfl
    rw [h1]
    have h2 : encodeVarint 128 = [128, 1] := by
      rw [encodeVarint]
      norm_num
      rw [encodeVarint]
      norm_num
    rw [h2]
    rfl
  refine ⟨by rw [henc]; rfl, rfl, ?_⟩
  intro hcontra
  have : (Except.error (FrameError.varint .truncated) :
      Except FrameError (List (List Nat) × List Nat)) = .ok ([List.replicate 64 0], []) := by
    rw [← hcontra]; rfl
  exact absurd this (by simp)

/-- C4 (amended): encoding a payload of any length `L < 2 ^ 69` (so that its
length prefix `varint(L << 1)` fits the decoder's ten-byte varint limit) and
feeding the bytes to the decoder, in one call or split across any sequence of
fragments in which no fragment boundary falls inside the varint length
prefix (each cumulative prefix of the stream is either empty or contains the
whole length prefix), yields exactly one extracted payload equal to the
original and an empty buffer.  The original claim's "any sequence of
fragments" fails because a fragment ending inside a multi-byte length prefix
makes the varint decoder read past the end of the buffer. -/
theorem C4_roundtrip_amended (payload : List Nat) (frags : List (List Nat))
    (hlen : payload.length < 2 ^ 69)
    (hflat : frags.flatten = encodeFrame payload)
    (hpre : ∀ i, ((frags.take i).flatten).length = 0 ∨
      (encodeVarint (payload.length <<< 1)).length ≤ ((frags.take i).flatten).length) :
    feedFragments frags = .ok ([payload], []) := by
  have h63 : 7 * ((encodeVarint (payload.length <<< 1)).length - 1) ≤ 63 := by
    have hb : payload.length <<< 1 < 2 ^ (7 * 10) := by
      have h1 : payload.length <<< 1 = payload.length * 2 := by
        rw [Nat.shiftLeft_eq, pow_one]
      have h2 : (2 : Nat) ^ (7 * 10) = 2 ^ 69 * 2 := by norm_num
      rw [h1, h2]
      exact mul_lt_mul_of_pos_right hlen (by norm_num)
    have h10 := encodeVarint_length_le 10 (payload.length <<< 1) (by omega) hb
    omega
  rw [feedFragments]
  exact feedGo_inv payload h63 frags 0 [] [] (by simpa using hflat.symm)
    (by simpa using hpre) (Or.inl ⟨rfl, rfl, rfl⟩)

theorem C4_roundtrip_amended_witness :
    feedFragments [[2], [7]] = .ok ([[7]], []) := by
  apply C4_roundtrip_amended [7] [[2], [7]]
  · norm_num
  · have h2 : encodeVarint 2 = [2] := by
      rw [encodeVarint]
      norm_num
    rw [encodeFrame]
    rw [show ([7] : List Nat).length <<< 1 = 2 from rfl, h2]
    rfl
  · intro i
    have h2 : encodeVarint (([7] : List Nat).length <<< 1) = [2] := by
      rw [show ([7] : List Nat).length <<< 1 = 2 from rfl]
      rw [encodeVarint]
      norm_num
    match i with
    | 0 => exact Or.inl rfl
    | 1 => exact Or.inr (by rw [h2]; rfl)
    | n + 2 =>
      refine Or.inr ?_
      rw [h2]
      have ht : ([[2], [7]] : List (List Nat)).take (n + 2) = [[2], [7]] :=
        List.take_of_length_le (by simp)
      rw [ht]
      simp

/-- C5: whenever ingestion succeeds, the accumulation buffer holds exactly
the unparsed suffix of all bytes received so far: the consumed prefix parses
completely into the extracted frames (each frame's announced byte count was
present and its bytes were removed), and a non-empty leftover is a partial
frame — its length prefix decodes but announces more bytes than the buffer
holds, so it is left untouched until more bytes arrive. -/
theorem C5_buffer_unparsed_suffix (frags : List (List Nat)) (F : List (List Nat))
    (B : List Nat) (h : feedFragments frags = .ok (F, B)) :
    (∃ consumed, frags.flatten = consumed ++ B ∧ Parses consumed F) ∧
    (B ≠ [] → ∃ r pos, decodeVarint B = .ok (r, pos) ∧ B.length < pos + (r >>> 1)) := by
  obtain ⟨c, newF, hF, hsplit, hp, hpart⟩ := feedGo_parses frags [] [] F B h
  refine ⟨⟨c, by simpa using hsplit, by rw [hF]; exact hp⟩, ?_⟩
  intro hB
  rcases hpart hB with ⟨_, hBB⟩ | hins
  · exact absurd hBB hB
  · exact hins

theorem C5_buffer_unparsed_suffix_witness :
    (∃ consumed, ([[2, 9, 4]] : List (List Nat)).flatten = consumed ++ [4] ∧
      Parses consumed [[9]]) ∧
    (([4] : List Nat) ≠ [] →
      ∃ r pos, decodeVarint [4] = .ok (r, pos) ∧ ([4] : List Nat).length < pos + (r >>> 1)) :=
  C5_buffer_unparsed_suffix [[2, 9, 4]] [[9]] [4] rfl

end ABCI
